import Mathlib

/-!
Verification development for the `aika` discrete-event simulation kernel.

The definitions below are a shallow embedding of `src/aika/src/resources.rs`
and `src/aika/src/environment.rs`:

* Rust `VecDeque` values are modelled as lists whose head is the front of
  the deque (`push_back` appends, `pop_front` takes the head).
* The Rust `Vec` used as a stack by `Containers` is modelled as a list whose
  head is the most recently pushed element (`push` conses, `pop` uncoses).
* `u64`/`usize` quantities are modelled as `Nat`; the numeric commodity type
  of `Containers<T>` is kept generic over the `Arithmetic`/`PartialOrd`
  bounds of the Rust code and instantiated at `Int` (the mathematical
  integer instance of the open `Arithmetic` trait).
* Fallible Rust functions return `Except`; a Rust panic (a failed `unwrap`
  or `assert!`) is modelled as `none` at the level of the aborted step.
-/

set_option linter.unusedVariables false
set_option linter.unreachableTactic false
set_option linter.unusedTactic false

namespace Aika

/-- Intent tags yielded by processes (`enum Yield`, environment.rs). -/
inductive Yield where
  | timeout (delta : Nat)
  | pause
  | addEvent (timeDelta : Nat) (processId : Nat)
  | requestResource (r : Nat)
  | releaseResource (r : Nat)
  | getContainer (c : Nat)
  | putContainer (c : Nat)
  | getStore (s : Nat)
  | putStore (s : Nat)
  deriving DecidableEq

/-- Event record (`struct Event<T>`, environment.rs): scheduled time,
owning process id, carried state. -/
structure Event (T : Type) where
  time : Nat
  process_id : Nat
  state : T
  deriving DecidableEq

variable {T : Type}

/-- Pool of reusable units (`struct Resources<T>`, resources.rs). -/
structure Resources (T : Type) where
  capacity : Nat
  left : Nat
  queue : List (Event T)
  deriving DecidableEq

/-- Rust `Resources::new` (resources.rs). -/
def Resources.new (T : Type) (capacity : Nat) : Resources T :=
  { capacity := capacity, left := capacity, queue := [] }

/-- Rust `Resources::request` (resources.rs): take one unit if any is left,
otherwise park the event at the back of the FIFO waiters and return `Err`. -/
def Resources.request (self : Resources T) (event : Event T) :
    Resources T × Except String (Event T) :=
  if self.left > 0 then
    ({ self with left := self.left - 1 },
      Except.ok { time := event.time, process_id := event.process_id, state := event.state })
  else
    ({ self with queue := self.queue ++ [event] },
      Except.error "Cannot request from empty resource")

/-- Rust `Resources::release` (resources.rs): pop the head waiter (rebadged with
the releasing event's time) if any, otherwise increment `left`.  The result
is `none` exactly when the Rust `assert!(self.left < self.capacity)` fails,
which aborts the run. -/
def Resources.release (self : Resources T) (event : Event T) :
    Option (Resources T × Option (Event T)) :=
  match self.queue with
  | waiter :: rest =>
      some ({ self with queue := rest },
        some { time := event.time, process_id := waiter.process_id, state := waiter.state })
  | [] =>
      if self.left < self.capacity then
        some ({ self with left := self.left + 1 }, none)
      else
        none

/-- Capacity-limited typed queue (`struct Stores<T>`, resources.rs). -/
structure Stores (T : Type) where
  capacity : Nat
  gets : List (Event T)
  puts : List (Event T)
  state : List (Event T)
  deriving DecidableEq

/-- Rust `Stores::new` (resources.rs). -/
def Stores.new (T : Type) (capacity : Nat) : Stores T :=
  { capacity := capacity, gets := [], puts := [], state := [] }

/-- Rust `Stores::get` (resources.rs): pop the front stored item if any (also
admitting one pending put into storage), rebadged with the requesting
event's time and process id; otherwise park the requester in `gets`. -/
def Stores.get (self : Stores T) (event : Event T) :
    Stores T × Except String (Event T) :=
  match self.state with
  | stored :: rest =>
      let self' :=
        match self.puts with
        | p :: ps => { self with state := rest ++ [p], puts := ps }
        | [] => { self with state := rest }
      (self', Except.ok { time := event.time, process_id := event.process_id, state := stored.state })
  | [] =>
      ({ self with gets := self.gets ++ [event] }, Except.error "Cannot get from empty store")

/-- Rust `Stores::put` (resources.rs): append to storage while below capacity,
otherwise park the event in `puts`. -/
def Stores.put (self : Stores T) (event : Event T) : Stores T :=
  if self.state.length < self.capacity then { self with state := self.state ++ [event] }
  else { self with puts := self.puts ++ [event] }

/-- The `Arithmetic<T>` trait of resources.rs. -/
class Arithmetic (T : Type) where
  add : T → T → T
  sub : T → T → T

/-- Boolean comparisons standing in for the `PartialOrd` bound used by
`Containers` (resources.rs): `leB a b` is Rust `a <= b`, `ltB a b` is
Rust `a < b`. -/
class OrdOps (T : Type) where
  leB : T → T → Bool
  ltB : T → T → Bool

instance instArithmeticInt : Arithmetic Int :=
  { add := fun a b => a + b, sub := fun a b => a - b }

instance instOrdOpsInt : OrdOps Int :=
  { leB := fun a b => decide (a ≤ b), ltB := fun a b => decide (a < b) }

/-- Bounded commodity buffer (`struct Containers<T>`, resources.rs).  The
`chain` is the backing `Vec` with its most recently pushed element first. -/
structure Containers (T : Type) where
  container_capacity : T
  init : T
  chain : List T
  deriving DecidableEq

/-- Rust `Containers::new` (resources.rs): the initial level is pushed onto the
chain; the `init` field is set to `T::default()` as in the source. -/
def Containers.new [Inhabited T] (capacity : T) (ini : T) : Containers T :=
  { container_capacity := capacity, init := default, chain := [ini] }

/-- Rust `Containers::get` (resources.rs): reject negative amounts; pop the
level, and push the decremented level back only when it covers the amount
(an insufficient level is popped and NOT pushed back). -/
def Containers.get [Arithmetic T] [OrdOps T] [Inhabited T]
    (self : Containers T) (amount : T) : Containers T × Except String T :=
  if OrdOps.leB default amount then
    match self.chain with
    | value :: rest =>
        if OrdOps.leB amount value then
          ({ self with chain := Arithmetic.sub value amount :: rest }, Except.ok amount)
        else
          ({ self with chain := rest }, Except.error "Cannot have negative reserves")
    | [] => (self, Except.ok default)
  else
    (self, Except.error "Cannot have negative get amount")

/-- Rust `Containers::put` (resources.rs): add to the level, clamping at
capacity; a no-op when the chain is empty. -/
def Containers.put [Arithmetic T] [OrdOps T]
    (self : Containers T) (amount : T) : Containers T :=
  match self.chain with
  | value :: rest =>
      if OrdOps.ltB self.container_capacity (Arithmetic.add value amount) then
        { self with chain := self.container_capacity :: rest }
      else
        { self with chain := Arithmetic.add value amount :: rest }
  | [] => self

/-- An observation sequence on a single buffer: the container operations a
run can apply between observation points. -/
inductive ContainerOp where
  | get (amount : Int)
  | put (amount : Int)
  deriving DecidableEq

/-- The state change of one container operation (the returned value of a
`get` is dropped). -/
def applyContainerOp (c : Containers Int) : ContainerOp → Containers Int
  | ContainerOp.get a => (c.get a).1
  | ContainerOp.put a => c.put a

/-- A sequence of container operations applied in order. -/
def applyContainerOps (c : Containers Int) (ops : List ContainerOp) : Containers Int :=
  ops.foldl applyContainerOp c

/-- The amount of a `put` operation is nonnegative; `get` is unrestricted. -/
def ContainerOp.nonnegPut : ContainerOp → Prop
  | ContainerOp.get _ => True
  | ContainerOp.put a => 0 ≤ a

instance : DecidablePred ContainerOp.nonnegPut := by
  intro op
  cases op with
  | get a => exact isTrue trivial
  | put a => exact inferInstanceAs (Decidable (0 ≤ a))

/-- An observation sequence on a single store. -/
inductive StoreOp (T : Type) where
  | get (e : Event T)
  | put (e : Event T)
  deriving DecidableEq

/-- The state change of one store operation (the returned value of a `get`
is dropped). -/
def applyStoreOp (s : Stores T) : StoreOp T → Stores T
  | StoreOp.get e => (s.get e).1
  | StoreOp.put e => s.put e

/-- A sequence of store operations applied in order. -/
def applyStoreOps (s : Stores T) (ops : List (StoreOp T)) : Stores T :=
  ops.foldl applyStoreOp s

/-!
The event queue: `BinaryHeap<Reverse<Event<T>>>` over the insertion-order
backing vector.  `Event<T>`'s `Ord` (environment.rs) compares the `time`
fields only, and the `Reverse` wrapper flips the comparison, so the heap is
a min-heap on `time`.  The sift routines below mirror `std`'s
`sift_up` / `sift_down_to_bottom` hole algorithms; each carries an explicit
fuel that strictly exceeds the number of loop iterations at every call
site, so the `fuel = 0` branches are never reached.
-/

/-- Rust `BinaryHeap::sift_up`: the hole starts at `pos` holding `elem` and
moves toward `start` while the parent is strictly smaller (on `Reverse`
keys, i.e. while the parent's time is strictly larger).  Returns the final
backing vector and the hole's final index. -/
def siftUpAux (fuel : Nat) (data : List (Event T)) (start : Nat) (elem : Event T)
    (pos : Nat) : List (Event T) × Nat :=
  match fuel with
  | 0 => (data.set pos elem, pos)
  | fuel + 1 =>
      if start < pos then
        let parent := (pos - 1) / 2
        let pv := data.getD parent elem
        if pv.time ≤ elem.time then (data.set pos elem, pos)
        else siftUpAux fuel (data.set pos pv) start elem parent
      else (data.set pos elem, pos)

/-- Rust `sift_up` with its intrinsic fuel (the hole index only decreases). -/
def siftUp (data : List (Event T)) (start pos : Nat) (elem : Event T) :
    List (Event T) × Nat :=
  siftUpAux (pos + 1) data start elem pos

/-- Rust `BinaryHeap::push`: append, then sift the new element up. -/
def heapPush (data : List (Event T)) (item : Event T) : List (Event T) :=
  (siftUp (data ++ [item]) 0 data.length item).1

/-- The loop of Rust `BinaryHeap::sift_down_to_bottom`: move the hole to the
bottom of the heap, always stepping to the greater child (on `Reverse` keys
the child with the smaller-or-equal time, preferring the right child on
ties). -/
def siftDownAux (fuel : Nat) (data : List (Event T)) (elem : Event T)
    (endd pos : Nat) : List (Event T) × Nat :=
  match fuel with
  | 0 => (data, pos)
  | fuel + 1 =>
      let child := 2 * pos + 1
      if child ≤ endd - 2 then
        let c :=
          if (data.getD (child + 1) elem).time ≤ (data.getD child elem).time then child + 1
          else child
        siftDownAux fuel (data.set pos (data.getD c elem)) elem endd c
      else if child = endd - 1 then
        (data.set pos (data.getD child elem), child)
      else (data, pos)

/-- Rust `BinaryHeap::sift_down_to_bottom` at `pos` with hole element
`elem`: run the hole to the bottom, then sift the element back up from
there. -/
def siftDownToBottom (data : List (Event T)) (pos : Nat) (elem : Event T) :
    List (Event T) :=
  let res := siftDownAux data.length data elem data.length pos
  (siftUp res.1 pos res.2 elem).1

/-- Rust `BinaryHeap::pop`: remove the last element of the backing vector,
swap it with the root (which is returned), and restore the heap with
`sift_down_to_bottom(0)`. -/
def heapPop (data : List (Event T)) : Option (Event T × List (Event T)) :=
  match data.getLast? with
  | none => none
  | some item =>
      match data.dropLast with
      | [] => some (item, [])
      | root :: tail => some (root, siftDownToBottom (item :: tail) 0 item)

/-!
The environment (environment.rs).  User processes are Rust generators; they
are modelled as a deterministic resume function parameterised by the process
id, threading a private generator state of type `Sigma`.  The seeded RNG and
the boxed distribution of a `Stochastic` execution are modelled together as
one abstract draw function `Rho → Nat × Rho` standing for
`distribution.sample(&mut rng).round() as u64`.
-/

/-- Rust `enum ProcessDuration` (environment.rs). -/
inductive ProcessDuration where
  | infinite (start : Nat)
  | finite (start stop : Nat)

/-- Rust `enum ProcessExecution` (environment.rs). -/
inductive ProcessExecution (Rho : Type) where
  | standard
  | constant (delta : Nat) (duration : ProcessDuration)
  | deterministic (eventsPath : Nat → Nat) (duration : ProcessDuration)
  | stochastic (sample : Rho → Nat × Rho) (duration : ProcessDuration)

/-- The result of resuming a generator (`GeneratorState`). -/
inductive GeneratorState (T : Type) where
  | yielded (val : T)
  | complete

/-- Rust `struct SimProcess<T>` (environment.rs): the generator's private state
and its execution policy. -/
structure SimProcess (Sigma Rho : Type) where
  process : Sigma
  time_delta : ProcessExecution Rho

/-- Rust `struct State<T>` (environment.rs): the input snapshot passed to a
resumed process. -/
structure State (T : Type) where
  state : T
  time : Nat

/-- The `EventYield` trait (environment.rs). -/
class EventYield (T : Type) where
  output : T → Yield
  set : T → Yield → T

/-- The deterministic resume behaviour of the registered generators:
process id, current generator state, input snapshot. -/
def ResumeFn (T Sigma : Type) : Type :=
  Nat → Sigma → State T → GeneratorState T × Sigma

/-- Rust `struct Environment<T>` (environment.rs).  `events` is the backing
vector of the `BinaryHeap<Reverse<Event<T>>>`; `processes` is the dense
`HashMap<usize, SimProcess<T>>` keyed by insertion index. -/
structure Env (T Sigma Rho : Type) where
  events : List (Event T)
  past_events : List (Event T)
  processes : List (SimProcess Sigma Rho)
  stores : List (Stores T)
  containers : List (Containers T)
  resources : List (Resources T)
  time : Nat
  stop : Nat
  rng : Rho
  logs : Bool

variable {Sigma Rho : Type}

/-- Rust `Environment::add_events` (environment.rs): drop the event when it
would land past the horizon or when the delta is zero, otherwise push it
onto the event heap at `time + time_delta`. -/
def add_events (env : Env T Sigma Rho) (id : Nat) (time_delta : Nat) (st : T) :
    Env T Sigma Rho :=
  if env.time + time_delta > env.stop then env
  else if time_delta = 0 then env
  else
    { env with
      events := heapPush env.events { time := env.time + time_delta, process_id := id, state := st } }

/-- The dispatch of a yielded intent in `Environment::step`
(environment.rs): the match on `val.output()` followed by the trailing
`self.add_events(process_id, time_delta, val)`.  A result of `none` is a
Rust panic aborting the run: a missing resource id, the `.unwrap()` of an
`Err` from `request`/`Containers::get`/`Stores::get`, the `.unwrap()` of
the `None` returned by a waiterless `release`, or the failed `assert!`
inside `release`. -/
def stepYield [EventYield T] [Arithmetic T] [OrdOps T] [Inhabited T]
    (env : Env T Sigma Rho) (process_id : Nat) (time_delta : Nat) (val : T) :
    Option (Env T Sigma Rho) :=
  match EventYield.output val with
  | Yield.timeout delta =>
      some (add_events (add_events env process_id delta val) process_id time_delta val)
  | Yield.pause => some (add_events env process_id time_delta val)
  | Yield.addEvent d target =>
      some (add_events (add_events env target d val) process_id time_delta val)
  | Yield.requestResource r =>
      match env.resources.get? r with
      | none => none
      | some resource =>
          match resource.request { time := env.time, process_id := process_id, state := val } with
          | (res', Except.ok _) =>
              some (add_events { env with resources := env.resources.set r res' }
                process_id time_delta val)
          | (_, Except.error _) => none
  | Yield.releaseResource r =>
      match env.resources.get? r with
      | none => none
      | some resource =>
          match resource.release { time := env.time, process_id := process_id, state := val } with
          | none => none
          | some (res', some _) =>
              some (add_events { env with resources := env.resources.set r res' }
                process_id time_delta val)
          | some (_, none) => none
  | Yield.getContainer c =>
      match env.containers.get? c with
      | none => none
      | some container =>
          match container.get val with
          | (con', Except.ok _) =>
              some (add_events { env with containers := env.containers.set c con' }
                process_id time_delta val)
          | (_, Except.error _) => none
  | Yield.putContainer c =>
      match env.containers.get? c with
      | none => none
      | some container =>
          some (add_events { env with containers := env.containers.set c (container.put val) }
            process_id time_delta val)
  | Yield.getStore s =>
      match env.stores.get? s with
      | none => none
      | some store =>
          match store.get { time := env.time, process_id := process_id, state := val } with
          | (store', Except.ok _) =>
              some (add_events { env with stores := env.stores.set s store' }
                process_id time_delta val)
          | (_, Except.error _) => none
  | Yield.putStore s =>
      match env.stores.get? s with
      | none => none
      | some store =>
          some (add_events
            { env with
              stores := env.stores.set s
                (store.put { time := env.time, process_id := process_id, state := val }) }
            process_id time_delta val)

/-- The tail of `Environment::step` (environment.rs): resume the generator
with the input snapshot and interpret the outcome.  A completed process
schedules nothing. -/
def stepResume [EventYield T] [Arithmetic T] [OrdOps T] [Inhabited T]
    (resume : ResumeFn T Sigma) (env : Env T Sigma Rho) (event : Event T)
    (sp : SimProcess Sigma Rho) (time_delta : Nat) : Option (Env T Sigma Rho) :=
  let r := resume event.process_id sp.process { state := event.state, time := env.time }
  let env' :=
    { env with processes := env.processes.set event.process_id { sp with process := r.2 } }
  match r.1 with
  | GeneratorState.complete => some env'
  | GeneratorState.yielded val => stepYield env' event.process_id time_delta val

/-- Rust `Environment::step` (environment.rs): pop the next event (the pop
`.unwrap()` and the process lookup `.unwrap()` panic on failure), advance
the clock, derive the pacing delta from the execution policy (dropping the
event without a resume when a finite lifetime has ended, and advancing the
RNG for a stochastic draw), then resume and dispatch. -/
def step [EventYield T] [Arithmetic T] [OrdOps T] [Inhabited T]
    (resume : ResumeFn T Sigma) (env : Env T Sigma Rho) : Option (Env T Sigma Rho) :=
  match heapPop env.events with
  | none => none
  | some (event, events') =>
      let env1 := { env with events := events', time := event.time }
      match env1.processes.get? event.process_id with
      | none => none
      | some sp =>
          match sp.time_delta with
          | ProcessExecution.standard => stepResume resume env1 event sp 0
          | ProcessExecution.constant delta dur =>
              match dur with
              | ProcessDuration.infinite _ => stepResume resume env1 event sp delta
              | ProcessDuration.finite _ endT =>
                  if endT < env1.time then some env1
                  else stepResume resume env1 event sp delta
          | ProcessExecution.deterministic f dur =>
              match dur with
              | ProcessDuration.infinite _ => stepResume resume env1 event sp (f env1.time)
              | ProcessDuration.finite _ endT =>
                  if endT < env1.time then some env1
                  else stepResume resume env1 event sp (f env1.time)
          | ProcessExecution.stochastic sample dur =>
              match dur with
              | ProcessDuration.infinite _ =>
                  let s := sample env1.rng
                  stepResume resume { env1 with rng := s.2 } event sp s.1
              | ProcessDuration.finite _ endT =>
                  if endT < env1.time then some env1
                  else
                    let s := sample env1.rng
                    stepResume resume { env1 with rng := s.2 } event sp s.1

/-- The `while !self.events.is_empty()` loop of `Environment::run`
(environment.rs), with an explicit iteration bound.  `none` propagates a
panic of `step`; exhausted fuel returns the state reached so far. -/
def runLoop [EventYield T] [Arithmetic T] [OrdOps T] [Inhabited T]
    (resume : ResumeFn T Sigma) (fuel : Nat) (env : Env T Sigma Rho) :
    Option (Env T Sigma Rho) :=
  match fuel with
  | 0 => some env
  | fuel + 1 =>
      if env.events.isEmpty then some env
      else
        match step resume env with
        | none => none
        | some env' => runLoop resume fuel env'

/-- Rust `Environment::run` (environment.rs): loop only when the clock is still
before the stop time. -/
def run [EventYield T] [Arithmetic T] [OrdOps T] [Inhabited T]
    (resume : ResumeFn T Sigma) (fuel : Nat) (env : Env T Sigma Rho) :
    Option (Env T Sigma Rho) :=
  if env.time < env.stop then runLoop resume fuel env else some env

/-- Rust `Environment::set_logs` (environment.rs). -/
def set_logs (env : Env T Sigma Rho) (logs : Bool) : Env T Sigma Rho :=
  { env with logs := logs }

/-!
A concrete instantiation of the carrier type `T`, written the way a library
user would: the intent tag together with an integer payload, the payload
carrying the arithmetic and ordering demanded by the trait bounds of
`Environment` (the container amount is the yielded value itself).
-/

/-- A concrete carrier for the environment's type parameter `T`. -/
structure DemoState where
  tag : Yield
  value : Int
  deriving DecidableEq

instance : EventYield DemoState :=
  { output := fun v => v.tag, set := fun v o => { v with tag := o } }

instance : Arithmetic DemoState :=
  { add := fun a b => { tag := a.tag, value := a.value + b.value },
    sub := fun a b => { tag := a.tag, value := a.value - b.value } }

instance : OrdOps DemoState :=
  { leB := fun a b => decide (a.value ≤ b.value),
    ltB := fun a b => decide (a.value < b.value) }

instance : Inhabited DemoState := ⟨{ tag := Yield.pause, value := 0 }⟩

/-- A fresh environment (cf. `Environment::new`) holding the given events,
processes and resources, with horizon 10 and empty history. -/
def demoEnv (events : List (Event DemoState)) (procs : List (SimProcess Unit Unit))
    (resList : List (Resources DemoState)) (conList : List (Containers DemoState)) :
    Env DemoState Unit Unit :=
  { events := events, past_events := [], processes := procs, stores := [],
    containers := conList, resources := resList, time := 0, stop := 10,
    rng := (), logs := false }

/-- A generator that always requests one unit of pool 0. -/
def resumeRequest : ResumeFn DemoState Unit :=
  fun _ s _ => (GeneratorState.yielded { tag := Yield.requestResource 0, value := 0 }, s)

/-- A generator that always releases one unit of pool 0. -/
def resumeRelease : ResumeFn DemoState Unit :=
  fun _ s _ => (GeneratorState.yielded { tag := Yield.releaseResource 0, value := 0 }, s)

/-- A generator that always draws 5 units from buffer 0. -/
def resumeGetContainer : ResumeFn DemoState Unit :=
  fun _ s _ => (GeneratorState.yielded { tag := Yield.getContainer 0, value := 5 }, s)

/-- A generator that always pauses. -/
def resumePause : ResumeFn DemoState Unit :=
  fun _ s _ => (GeneratorState.yielded { tag := Yield.pause, value := 0 }, s)

/-- An inert carried payload. -/
def idleVal : DemoState := { tag := Yield.pause, value := 0 }

/-- Scenario for C1: one event at time 1 for process 0 (a `Standard`
one-shot), pool 0 with capacity 1 and no unit left. -/
def envRequestBlocked : Env DemoState Unit Unit :=
  demoEnv [{ time := 1, process_id := 0, state := idleVal }]
    [{ process := (), time_delta := ProcessExecution.standard }]
    [{ capacity := 1, left := 0, queue := [] }] []

/-- Scenario for C2 (idle release): pool 0 with capacity 1, no unit left,
no waiters; process 0 releases at time 5. -/
def envReleaseIdle : Env DemoState Unit Unit :=
  demoEnv [{ time := 5, process_id := 0, state := idleVal }]
    [{ process := (), time_delta := ProcessExecution.standard }]
    [{ capacity := 1, left := 0, queue := [] }] []

/-- Scenario for C2 (waiter wakeup): pool 0 with capacity 1, no unit left,
one parked waiter (process 7); process 0 releases at time 5. -/
def envReleaseWaiter : Env DemoState Unit Unit :=
  demoEnv [{ time := 5, process_id := 0, state := idleVal }]
    [{ process := (), time_delta := ProcessExecution.standard }]
    [{ capacity := 1, left := 0,
       queue := [{ time := 0, process_id := 7, state := idleVal }] }] []

/-- Scenario for C3 (spec S5): buffer 0 with capacity 1000 and level 0;
process 0 issues a get of 5 at time 2. -/
def envGetUnderflow : Env DemoState Unit Unit :=
  demoEnv [{ time := 2, process_id := 0, state := idleVal }]
    [{ process := (), time_delta := ProcessExecution.standard }] []
    [Containers.new { tag := Yield.pause, value := 1000 } { tag := Yield.pause, value := 0 }]

/-- Scenario for C5: logging enabled, one event at time 3 for a pausing
process. -/
def envLogsOn : Env DemoState Unit Unit :=
  { demoEnv [{ time := 3, process_id := 0, state := idleVal }]
      [{ process := (), time_delta := ProcessExecution.standard }] [] [] with
    logs := true }

/-- Scenario for C9's counterexample: two queued events; dispatching the
first panics on a blocked pool request, so the queue is never drained. -/
def envAbortingRun : Env DemoState Unit Unit :=
  demoEnv [{ time := 1, process_id := 0, state := idleVal },
           { time := 2, process_id := 0, state := idleVal }]
    [{ process := (), time_delta := ProcessExecution.standard }]
    [{ capacity := 1, left := 0, queue := [] }] []

/-- The environment produced by dispatching the single event of
`envLogsOn`: the queue is drained, the clock reads 3, and nothing else
changed (in particular the history is still empty). -/
def envLogsOnAfter : Env DemoState Unit Unit :=
  { envLogsOn with
    events := [], time := 3,
    processes := [{ process := (), time_delta := ProcessExecution.standard }] }

/-- Weight of one queued event. -/
def wEv (stop : Nat) (e : Event T) : Nat := 3 ^ (stop + 1 - e.time)

/-- Weight sum of a backing vector. -/
def potList (stop : Nat) (l : List (Event T)) : Nat := (l.map (wEv stop)).sum

/-- Weight sum of the environment's event queue. -/
def potEnv (env : Env T Sigma Rho) : Nat := potList env.stop env.events

/-- Upper bound on the weight `add_events` can add in one call. -/
def potBound (stop time : Nat) : Nat := if stop ≤ time then 0 else 3 ^ (stop - time)

/-- The two queue invariants that survive in the code: storage never
exceeds capacity, and a pending put exists only while storage is full. -/
def StoreInv (s : Stores T) : Prop :=
  s.state.length ≤ s.capacity ∧ (s.puts ≠ [] → s.state.length = s.capacity)

/-! Claim theorems. -/

/-- C1: the claim says that dispatching an event that yields
`RequestPoolUnit(i)` against a pool with no available unit parks the event
on the pool's FIFO waiters and does not abort the run.  In the code
`Resources::request` does push the event onto the FIFO waiters and returns
`Err`, but `Environment::step` calls `.unwrap()` on that `Err`, so the run
panics: `step` aborts (returns `none`) on a concrete such dispatch. -/
theorem c1_blocked_request_aborts :
    Resources.request { capacity := 1, left := 0, queue := [] }
        { time := 1, process_id := 0, state := idleVal }
      = ({ capacity := 1, left := 0,
           queue := [{ time := 1, process_id := 0, state := idleVal }] },
         Except.error "Cannot request from empty resource")
    ∧ step resumeRequest envRequestBlocked = none := by
  exact ⟨rfl, rfl⟩

/-- C2: the claim says a `ReleasePoolUnit(i)` dispatch never aborts, wakes
the head waiter with a zero-delta event when waiters exist, and otherwise
increments the available count.  In the code: (a) with no waiters,
`Resources::release` increments `left` but returns `None`, which
`Environment::step` `.unwrap()`s — the run panics; (b) with a waiter, the
popped waiter is returned to `step` but immediately discarded, so no wakeup
event is ever scheduled (the event queue stays empty below) and the waiter
is lost from the pool's queue. -/
theorem c2_release_aborts_or_drops_waiter :
    Resources.release { capacity := 1, left := 0, queue := [] }
        { time := 5, process_id := 0, state := idleVal }
      = some ({ capacity := 1, left := 1, queue := [] }, none)
    ∧ step resumeRelease envReleaseIdle = none
    ∧ (step resumeRelease envReleaseWaiter).map (fun e => (e.events, e.resources))
      = some ([], [{ capacity := 1, left := 0, queue := [] }]) := by
  exact ⟨rfl, rfl, rfl⟩

/-- C3: the claim says an insufficient-level buffer get is returned to the
process as a failure status without aborting the run (spec scenario S5:
capacity 1000, level 0, get 5).  In the code `Containers::get` does return
the `Err`, but `Environment::step` `.unwrap()`s it, so the run panics:
`step` aborts on exactly the S5 input. -/
theorem c3_underflow_aborts :
    Containers.get
        (Containers.new ({ tag := Yield.pause, value := 1000 } : DemoState)
          { tag := Yield.pause, value := 0 })
        { tag := Yield.getContainer 0, value := 5 }
      = (({ container_capacity := { tag := Yield.pause, value := 1000 },
            init := { tag := Yield.pause, value := 0 },
            chain := [] } : Containers DemoState),
         Except.error "Cannot have negative reserves")
    ∧ step resumeGetContainer envGetUnderflow = none := by
  exact ⟨rfl, rfl⟩

/-- C4: the claim says equal-time events dispatch in insertion order.  The
event comparison (`impl Ord for Event`) uses the time alone and the binary
heap is not stable: pushing events at times 5 (process 0), 5 (process 1)
and 1 (process 2) in that order, the pops dispatch process 1 before
process 0, reversing the insertion order of the simultaneous events. -/
theorem c4_no_fifo_tiebreak :
    heapPush (heapPush (heapPush ([] : List (Event Unit))
        { time := 5, process_id := 0, state := () })
        { time := 5, process_id := 1, state := () })
        { time := 1, process_id := 2, state := () }
      = [{ time := 1, process_id := 2, state := () },
         { time := 5, process_id := 1, state := () },
         { time := 5, process_id := 0, state := () }]
    ∧ heapPop [({ time := 1, process_id := 2, state := () } : Event Unit),
         { time := 5, process_id := 1, state := () },
         { time := 5, process_id := 0, state := () }]
      = some ({ time := 1, process_id := 2, state := () },
         [{ time := 5, process_id := 1, state := () },
          { time := 5, process_id := 0, state := () }])
    ∧ heapPop [({ time := 5, process_id := 1, state := () } : Event Unit),
         { time := 5, process_id := 0, state := () }]
      = some ({ time := 5, process_id := 1, state := () },
         [{ time := 5, process_id := 0, state := () }])
    ∧ heapPop [({ time := 5, process_id := 0, state := () } : Event Unit)]
      = some ({ time := 5, process_id := 0, state := () }, []) := by
  exact ⟨rfl, rfl, rfl, rfl⟩


/-- The function `add_events` touches only the event queue: the history field is
untouched on every branch. -/
theorem add_events_past_events [EventYield T] [Arithmetic T] [OrdOps T] [Inhabited T]
    (env : Env T Sigma Rho) (id : Nat) (time_delta : Nat) (st : T) :
    (add_events env id time_delta st).past_events = env.past_events := by
  unfold add_events
  split
  · rfl
  · split <;> rfl

/-- No branch of the yield dispatch appends to the history. -/
theorem stepYield_past_events [EventYield T] [Arithmetic T] [OrdOps T] [Inhabited T]
    (env : Env T Sigma Rho) (process_id time_delta : Nat) (val : T)
    (env' : Env T Sigma Rho) (h : stepYield env process_id time_delta val = some env') :
    env'.past_events = env.past_events := by
  unfold stepYield at h
  repeat' split at h
  all_goals try exact Option.noConfusion h
  all_goals injection h with h2
  all_goals subst h2
  all_goals simp [add_events_past_events]

/-- Resuming a process and dispatching its yield never appends to the
history. -/
theorem stepResume_past_events [EventYield T] [Arithmetic T] [OrdOps T] [Inhabited T]
    (resume : ResumeFn T Sigma) (env : Env T Sigma Rho) (event : Event T)
    (sp : SimProcess Sigma Rho) (time_delta : Nat) (env' : Env T Sigma Rho)
    (h : stepResume resume env event sp time_delta = some env') :
    env'.past_events = env.past_events := by
  simp only [stepResume] at h
  split at h
  · injection h with h2
    subst h2
    rfl
  · have h3 := stepYield_past_events _ _ _ _ _ h
    exact h3

/-- Rust `Environment::step` never appends the dispatched event (or anything
else) to `past_events`. -/
theorem step_past_events [EventYield T] [Arithmetic T] [OrdOps T] [Inhabited T]
    (resume : ResumeFn T Sigma) (env env' : Env T Sigma Rho)
    (h : step resume env = some env') :
    env'.past_events = env.past_events := by
  simp only [step] at h
  repeat' split at h
  all_goals try exact Option.noConfusion h
  all_goals try (injection h with h2; subst h2; rfl)
  all_goals have h3 := stepResume_past_events _ _ _ _ _ _ h
  all_goals exact h3

/-- C5: the claim says `past_events` holds every dispatched event in
dispatch order, gated by the `logs` toggle.  In the code `step` never
appends to `past_events` and never reads `logs`: the general conjunct shows
no successful step ever changes `past_events`, and the concrete conjuncts
run a simulation with `logs = true` that dispatches one event yet ends with
an empty history. -/
theorem c5_history_never_populated :
    (∀ (T Sigma Rho : Type) [EventYield T] [Arithmetic T] [OrdOps T] [Inhabited T]
      (resume : ResumeFn T Sigma) (env env' : Env T Sigma Rho),
      step resume env = some env' → env'.past_events = env.past_events)
    ∧ run resumePause 2 envLogsOn = some envLogsOnAfter
    ∧ envLogsOnAfter.past_events = [] ∧ envLogsOnAfter.logs = true := by
  exact ⟨fun T Sigma Rho _ _ _ _ resume env env' h => step_past_events resume env env' h,
    rfl, rfl, rfl⟩

/-- C5 witness: the general conjunct applied to the concrete logging
scenario, whose single dispatch succeeds. -/
theorem c5_history_witness : envLogsOnAfter.past_events = envLogsOn.past_events :=
  c5_history_never_populated.1 DemoState Unit Unit resumePause envLogsOn envLogsOnAfter rfl

/-- One container operation with a nonnegative put amount keeps the
capacity and keeps every stored level within bounds. -/
theorem applyContainerOp_inv (c : Containers Int) (op : ContainerOp)
    (hcap : 0 ≤ c.container_capacity)
    (hinv : ∀ l ∈ c.chain, 0 ≤ l ∧ l ≤ c.container_capacity)
    (hop : op.nonnegPut) :
    (applyContainerOp c op).container_capacity = c.container_capacity ∧
    ∀ l ∈ (applyContainerOp c op).chain, 0 ≤ l ∧ l ≤ c.container_capacity := by
  obtain ⟨cap, ini, chain⟩ := c
  simp only [] at hcap hinv
  cases op with
  | get a =>
      cases chain with
      | nil =>
          simp only [applyContainerOp, Containers.get]
          split
          · exact ⟨rfl, hinv⟩
          · exact ⟨rfl, hinv⟩
      | cons v rest =>
          have hv := hinv v (by simp)
          have hrest : ∀ l ∈ rest, 0 ≤ l ∧ l ≤ cap := fun l hl => hinv l (by simp [hl])
          simp only [applyContainerOp, Containers.get, instOrdOpsInt, decide_eq_true_eq,
            show (default : Int) = 0 from rfl]
          split
          · split
            · refine ⟨rfl, ?_⟩
              intro l hl
              simp only [List.mem_cons] at hl
              rcases hl with hl | hl
              · subst hl
                simp only [Arithmetic.sub, instArithmeticInt]
                have := hv.2
                rename_i h0a hav
                constructor
                · omega
                · omega
              · exact hrest l hl
            · exact ⟨rfl, hrest⟩
          · exact ⟨rfl, hinv⟩
  | put a =>
      simp only [ContainerOp.nonnegPut] at hop
      cases chain with
      | nil => exact ⟨rfl, hinv⟩
      | cons v rest =>
          have hv := hinv v (by simp)
          have hrest : ∀ l ∈ rest, 0 ≤ l ∧ l ≤ cap := fun l hl => hinv l (by simp [hl])
          simp only [applyContainerOp, Containers.put, instOrdOpsInt, instArithmeticInt,
            decide_eq_true_eq]
          split
          · refine ⟨rfl, ?_⟩
            intro l hl
            simp only [List.mem_cons] at hl
            rcases hl with hl | hl
            · subst hl
              exact ⟨hcap, le_refl _⟩
            · exact hrest l hl
          · refine ⟨rfl, ?_⟩
            intro l hl
            simp only [List.mem_cons] at hl
            rcases hl with hl | hl
            · subst hl
              rename_i hno
              constructor
              · omega
              · omega
            · exact hrest l hl

/-- The container level invariant is preserved along any operation
sequence whose put amounts are nonnegative. -/
theorem applyContainerOps_inv (ops : List ContainerOp) :
    ∀ (c : Containers Int), 0 ≤ c.container_capacity →
      (∀ l ∈ c.chain, 0 ≤ l ∧ l ≤ c.container_capacity) →
      (∀ op ∈ ops, op.nonnegPut) →
      (applyContainerOps c ops).container_capacity = c.container_capacity ∧
      ∀ l ∈ (applyContainerOps c ops).chain, 0 ≤ l ∧ l ≤ c.container_capacity := by
  induction ops with
  | nil =>
      intro c hcap hinv hops
      exact ⟨rfl, hinv⟩
  | cons op rest ih =>
      intro c hcap hinv hops
      have h1 := applyContainerOp_inv c op hcap hinv (hops op (by simp))
      have h2 := ih (applyContainerOp c op) (h1.1 ▸ hcap)
        (fun l hl => h1.1 ▸ h1.2 l hl)
        (fun o ho => hops o (by simp [ho]))
      simp only [applyContainerOps, List.foldl_cons] at h2 ⊢
      exact ⟨h2.1.trans h1.1, fun l hl => h1.1 ▸ h2.2 l hl⟩

/-- C6 counterexample: the claim asserts `0 ≤ level ≤ capacity` for every
operation sequence with any amounts, and that the level always exists.  A
`put(-400)` on level 300 (capacity 1000) drives the level to -100, because
put amounts are never sign-checked; and a failed `get` pops the stored
level, leaving the chain empty, so a level need not exist afterwards. -/
theorem c6_counterexample :
    ((Containers.new (1000 : Int) 300).put (-400)).chain = [(-100 : Int)]
    ∧ ¬ (∀ l ∈ ((Containers.new (1000 : Int) 300).put (-400)).chain, 0 ≤ l ∧ l ≤ 1000)
    ∧ ((Containers.new (1000 : Int) 0).get 5).1.chain = [] := by
  decide

/-- C6 (amended): for every buffer created with `0 ≤ init ≤ capacity` and
every sequence of get/put operations whose put amounts are nonnegative,
each level stored in the buffer satisfies `0 ≤ level ≤ capacity` at every
observation point (a failed get removes the stored level, so the chain may
become empty, but it never holds an out-of-bounds level). -/
theorem c6_level_bounds :
    ∀ (cap ini : Int) (ops : List ContainerOp), 0 ≤ ini → ini ≤ cap →
      (∀ op ∈ ops, op.nonnegPut) →
      (applyContainerOps (Containers.new cap ini) ops).chain.all
        (fun l => decide (0 ≤ l ∧ l ≤ cap)) = true := by
  intro cap ini ops h0 h1 hops
  have hcap : (0 : Int) ≤ cap := le_trans h0 h1
  have hinv : ∀ l ∈ (Containers.new cap ini).chain,
      0 ≤ l ∧ l ≤ (Containers.new cap ini).container_capacity := by
    intro l hl
    simp only [Containers.new, List.mem_singleton] at hl
    subst hl
    exact ⟨h0, h1⟩
  have h := applyContainerOps_inv ops (Containers.new cap ini) hcap hinv hops
  rw [List.all_eq_true]
  intro l hl
  rw [decide_eq_true_eq]
  exact h.2 l hl

/-- C6 witness: a concrete clamp-then-draw sequence on the capacity-1000
buffer stays within bounds. -/
theorem c6_level_bounds_witness :
    (applyContainerOps (Containers.new (1000 : Int) 300)
      [ContainerOp.put 900, ContainerOp.get 1000]).chain.all
        (fun l => decide (0 ≤ l ∧ l ≤ 1000)) = true :=
  c6_level_bounds 1000 300 [ContainerOp.put 900, ContainerOp.get 1000]
    (by decide) (by decide) (by decide)

/-- One store operation preserves the capacity and `StoreInv`. -/
theorem applyStoreOp_inv (s : Stores T) (op : StoreOp T) (h : StoreInv s) :
    (applyStoreOp s op).capacity = s.capacity ∧ StoreInv (applyStoreOp s op) := by
  obtain ⟨cap, gets, puts, state⟩ := s
  obtain ⟨h1, h2⟩ := h
  replace h1 : state.length ≤ cap := h1
  replace h2 : puts ≠ [] → state.length = cap := h2
  cases op with
  | get e =>
      cases state with
      | nil =>
          exact ⟨rfl, h1, h2⟩
      | cons st rest =>
          cases puts with
          | nil =>
              refine ⟨rfl, ?_, ?_⟩
              · simp only [applyStoreOp, Stores.get, List.length_cons] at h1 ⊢
                omega
              · intro hne
                exact absurd rfl hne
          | cons p ps =>
              have hfull := h2 (by simp)
              simp only [List.length_cons] at hfull h1
              refine ⟨rfl, ?_, ?_⟩
              · simp only [applyStoreOp, Stores.get, List.length_append, List.length_cons,
                  List.length_nil]
                omega
              · intro _
                simp only [applyStoreOp, Stores.get, List.length_append, List.length_cons,
                  List.length_nil]
                omega
  | put e =>
      by_cases hlt : state.length < cap
      · have hres : applyStoreOp ⟨cap, gets, puts, state⟩ (StoreOp.put e)
            = ⟨cap, gets, puts, state ++ [e]⟩ := by
          simp only [applyStoreOp, Stores.put, hlt, if_true]
        rw [hres]
        refine ⟨rfl, ?_, ?_⟩
        · show (state ++ [e]).length ≤ cap
          simp only [List.length_append, List.length_cons, List.length_nil]
          omega
        · intro hp
          have := h2 hp
          show (state ++ [e]).length = cap
          simp only [List.length_append, List.length_cons, List.length_nil]
          omega
      · have hres : applyStoreOp ⟨cap, gets, puts, state⟩ (StoreOp.put e)
            = ⟨cap, gets, puts ++ [e], state⟩ := by
          simp only [applyStoreOp, Stores.put, hlt, if_false]
        rw [hres]
        refine ⟨rfl, ?_, ?_⟩
        · exact h1
        · intro _
          show state.length = cap
          omega


/-- The invariant `StoreInv` is preserved along any operation sequence, with the
capacity unchanged. -/
theorem applyStoreOps_inv (ops : List (StoreOp T)) :
    ∀ (s : Stores T), StoreInv s →
      (applyStoreOps s ops).capacity = s.capacity ∧ StoreInv (applyStoreOps s ops) := by
  induction ops with
  | nil =>
      intro s h
      exact ⟨rfl, h⟩
  | cons op rest ih =>
      intro s h
      have h1 := applyStoreOp_inv s op h
      have h2 := ih (applyStoreOp s op) h1.2
      simp only [applyStoreOps, List.foldl_cons] at h2 ⊢
      exact ⟨h2.1.trans h1.1, h2.2⟩

/-- C7 counterexample: the claim asserts a pending get exists only while
storage is empty.  On a fresh capacity-1 store, a blocked `get` parks the
requester, and a subsequent `put` stores its item without waking or
consuming the parked getter: both `gets` and `state` are then non-empty. -/
theorem c7_counterexample :
    ¬ ((applyStoreOps (Stores.new Unit 1)
          [StoreOp.get { time := 0, process_id := 0, state := () },
           StoreOp.put { time := 0, process_id := 1, state := () }]).gets = []
       ∨ (applyStoreOps (Stores.new Unit 1)
          [StoreOp.get { time := 0, process_id := 0, state := () },
           StoreOp.put { time := 0, process_id := 1, state := () }]).state = []) := by
  decide

/-- C7 (amended): for every store and every get/put sequence from a fresh
store, storage never exceeds capacity and a pending put exists only while
storage is exactly full.  The claimed mutual exclusion of pending gets and
stored items does not hold (see the counterexample), because `Stores::put`
ignores parked getters. -/
theorem c7_store_invariants :
    ∀ (T : Type) (capacity : Nat) (ops : List (StoreOp T)),
      (applyStoreOps (Stores.new T capacity) ops).state.length ≤ capacity
      ∧ ((applyStoreOps (Stores.new T capacity) ops).puts ≠ [] →
          (applyStoreOps (Stores.new T capacity) ops).state.length = capacity) := by
  intro T capacity ops
  have h := applyStoreOps_inv ops (Stores.new T capacity)
    ⟨by simp [Stores.new], fun hne => absurd rfl hne⟩
  obtain ⟨hcap, h1, h2⟩ := h
  rw [hcap] at h1 h2
  exact ⟨h1, h2⟩

/-- C7 witness: a full store with one parked put realises both invariants,
with the pending-put hypothesis discharged. -/
theorem c7_store_invariants_witness :
    (applyStoreOps (Stores.new Unit 1)
        [StoreOp.put { time := 0, process_id := 0, state := () },
         StoreOp.put { time := 1, process_id := 1, state := () }]).state.length ≤ 1
    ∧ (applyStoreOps (Stores.new Unit 1)
        [StoreOp.put { time := 0, process_id := 0, state := () },
         StoreOp.put { time := 1, process_id := 1, state := () }]).state.length = 1 :=
  ⟨(c7_store_invariants Unit 1 _).1, (c7_store_invariants Unit 1 _).2 (by decide)⟩

/-- C8: `Containers::put` clamps at capacity: on a buffer holding level
`L`, the level becomes `capacity` when `L + amount` overshoots and
`L + amount` otherwise, never an error; and the spec's S4 scenario
(capacity 1000, initial 300, three puts of 900) ends at exactly 1000. -/
theorem c8_put_clamps :
    (∀ (cap ini L amount : Int) (rest : List Int),
      (Containers.put { container_capacity := cap, init := ini, chain := L :: rest }
          amount).chain
        = (if L + amount > cap then cap else L + amount) :: rest)
    ∧ ((((Containers.new (1000 : Int) 300).put 900).put 900).put 900).chain = [1000] := by
  constructor
  · intro cap ini L amount rest
    simp only [Containers.put, instOrdOpsInt, instArithmeticInt, decide_eq_true_eq]
    by_cases h : cap < L + amount
    · rw [if_pos h, if_pos h]
    · rw [if_neg h, if_neg h]
  · decide

/-- C10: a `Containers::get` whose amount is nonnegative but exceeds the
stored level pops the level without restoring it: the error is returned
with the chain now empty, after which every put is a no-op and every get
with a nonnegative amount returns `Ok` with the default value 0, whatever
the requested amount. -/
theorem c10_failed_get_loses_level :
    ∀ (cap ini v amount a b : Int), 0 ≤ amount → v < amount → 0 ≤ b →
      (Containers.get { container_capacity := cap, init := ini, chain := [v] } amount).1.chain
          = []
      ∧ (Containers.get { container_capacity := cap, init := ini, chain := [v] } amount).2
          = Except.error "Cannot have negative reserves"
      ∧ (Containers.get { container_capacity := cap, init := ini, chain := [v] } amount).1.put a
          = (Containers.get { container_capacity := cap, init := ini, chain := [v] } amount).1
      ∧ Containers.get
            ((Containers.get { container_capacity := cap, init := ini, chain := [v] } amount).1) b
          = ((Containers.get { container_capacity := cap, init := ini, chain := [v] } amount).1,
             Except.ok 0) := by
  intro cap ini v amount a b hamt hlt hb
  have hget : Containers.get { container_capacity := cap, init := ini, chain := [v] } amount
      = ({ container_capacity := cap, init := ini, chain := [] },
         Except.error "Cannot have negative reserves") := by
    simp only [Containers.get, instOrdOpsInt, decide_eq_true_eq,
      show (default : Int) = 0 from rfl]
    rw [if_pos hamt, if_neg (by omega)]
  rw [hget]
  refine ⟨rfl, rfl, rfl, ?_⟩
  simp only [Containers.get, instOrdOpsInt, decide_eq_true_eq,
    show (default : Int) = 0 from rfl]
  rw [if_pos hb]

/-- C10 witness: the spec's S5 numbers (capacity 1000, level 0, get 5)
followed by a put of 7 and a get of 3 on the emptied chain. -/
theorem c10_failed_get_witness :
    (Containers.get { container_capacity := (1000 : Int), init := 0, chain := [0] } 5).1.chain
        = []
    ∧ (Containers.get { container_capacity := (1000 : Int), init := 0, chain := [0] } 5).2
        = Except.error "Cannot have negative reserves"
    ∧ (Containers.get { container_capacity := (1000 : Int), init := 0, chain := [0] } 5).1.put 7
        = (Containers.get { container_capacity := (1000 : Int), init := 0, chain := [0] } 5).1
    ∧ Containers.get
          ((Containers.get { container_capacity := (1000 : Int), init := 0, chain := [0] } 5).1) 3
        = ((Containers.get { container_capacity := (1000 : Int), init := 0, chain := [0] } 5).1,
           Except.ok 0) :=
  c10_failed_get_loses_level 1000 0 0 5 7 3 (by decide) (by decide) (by decide)

/-!
Termination of `run` (C9).  Each queued event is weighted by
`3 ^ (stop + 1 - time)`; a dispatch removes the popped event's weight and
adds at most two events, strictly in the future and within the horizon, so
the total strictly decreases.  The sift lemmas below show the heap
operations preserve the weight sum of the backing vector as expected.
-/

theorem potList_nil (stop : Nat) : potList stop ([] : List (Event T)) = 0 := rfl

theorem potList_cons (stop : Nat) (e : Event T) (l : List (Event T)) :
    potList stop (e :: l) = wEv stop e + potList stop l := rfl

theorem potList_append (stop : Nat) (a b : List (Event T)) :
    potList stop (a ++ b) = potList stop a + potList stop b := by
  simp [potList]

theorem wEv_pos (stop : Nat) (e : Event T) : 0 < wEv stop e :=
  pow_pos (by norm_num) _

theorem potList_eq_zero (stop : Nat) (l : List (Event T)) (h : potList stop l = 0) :
    l = [] := by
  cases l with
  | nil => rfl
  | cons e rest =>
      rw [potList_cons] at h
      have := wEv_pos stop e
      omega

/-- Overwriting index `i` exchanges the weights of the old and new entries. -/
theorem potList_set (stop : Nat) (l : List (Event T)) (i : Nat) (a d : Event T)
    (h : i < l.length) :
    potList stop (l.set i a) + wEv stop (l.getD i d) = potList stop l + wEv stop a := by
  induction l generalizing i with
  | nil => simp at h
  | cons x xs ih =>
      cases i with
      | zero =>
          simp only [List.set_cons_zero, List.getD_cons_zero, potList_cons]
          omega
      | succ n =>
          simp only [List.set_cons_succ, List.getD_cons_succ, potList_cons]
          have hn : n < xs.length := by
            simp only [List.length_cons] at h
            omega
          have := ih n hn
          omega

/-- Reading beside an overwritten index is unchanged. -/
theorem getD_set_ne (l : List (Event T)) (i j : Nat) (a d : Event T) (hij : i ≠ j) :
    (l.set i a).getD j d = l.getD j d := by
  induction l generalizing i j with
  | nil => simp
  | cons x xs ih =>
      cases i with
      | zero =>
          cases j with
          | zero => exact absurd rfl hij
          | succ m => simp
      | succ n =>
          cases j with
          | zero => simp
          | succ m =>
              simp only [List.set_cons_succ, List.getD_cons_succ]
              exact ih n m (by omega)

/-- Reading the appended last element. -/
theorem getD_append_len (l : List (Event T)) (a d : Event T) :
    (l ++ [a]).getD l.length d = a := by
  induction l with
  | nil => rfl
  | cons x xs ih => simp [ih]

/-- Rust `sift_up` preserves the weight sum: the result weighs the same as the
vector with the hole element written at the starting hole. -/
theorem siftUpAux_potList (stop : Nat) :
    ∀ (fuel : Nat) (data : List (Event T)) (start : Nat) (elem : Event T) (pos : Nat),
      pos < data.length →
      potList stop (siftUpAux fuel data start elem pos).1 = potList stop (data.set pos elem) := by
  intro fuel
  induction fuel with
  | zero => intro data start elem pos h; rfl
  | succ fuel ih =>
      intro data start elem pos h
      unfold siftUpAux
      by_cases h1 : start < pos
      · simp only [h1, if_true]
        by_cases h2 : (data.getD ((pos - 1) / 2) elem).time ≤ elem.time
        · simp only [h2, if_true]
        · simp only [h2, if_false]
          have hpos : 0 < pos := by omega
          have hpar : (pos - 1) / 2 < pos := by omega
          have hparlen : (pos - 1) / 2 < (data.set pos (data.getD ((pos - 1) / 2) elem)).length := by
            rw [List.length_set]
            omega
          rw [ih _ start elem _ hparlen]
          have e1 := potList_set stop (data.set pos (data.getD ((pos - 1) / 2) elem))
            ((pos - 1) / 2) elem elem (by rw [List.length_set]; omega)
          rw [getD_set_ne data pos ((pos - 1) / 2) _ elem (by omega)] at e1
          have e2 := potList_set stop data pos (data.getD ((pos - 1) / 2) elem) elem h
          have e3 := potList_set stop data pos elem elem h
          omega
      · simp only [h1, if_false]

/-- The descent loop of `sift_down_to_bottom` keeps the length, returns an
in-range hole, and preserves weight sums up to the final hole position. -/
theorem siftDownAux_spec (stop : Nat) :
    ∀ (fuel : Nat) (data : List (Event T)) (elem : Event T) (endd pos : Nat),
      endd = data.length → pos < endd → endd ≤ fuel + pos →
      (siftDownAux fuel data elem endd pos).1.length = data.length
      ∧ (siftDownAux fuel data elem endd pos).2 < endd
      ∧ ∀ x, potList stop ((siftDownAux fuel data elem endd pos).1.set
          (siftDownAux fuel data elem endd pos).2 x) = potList stop (data.set pos x) := by
  intro fuel
  induction fuel with
  | zero =>
      intro data elem endd pos hlen hpos hfuel
      omega
  | succ fuel ih =>
      intro data elem endd pos hlen hpos hfuel
      unfold siftDownAux
      by_cases h1 : 2 * pos + 1 ≤ endd - 2
      · simp only [h1, if_true]
        have hend2 : 2 * pos + 1 + 1 < endd := by omega
        by_cases h2 : (data.getD (2 * pos + 1 + 1) elem).time ≤ (data.getD (2 * pos + 1) elem).time
        · simp only [h2, if_true]
          have hc : 2 * pos + 1 + 1 < (data.set pos (data.getD (2 * pos + 1 + 1) elem)).length := by
            rw [List.length_set]
            omega
          have hrec := ih (data.set pos (data.getD (2 * pos + 1 + 1) elem)) elem endd
            (2 * pos + 1 + 1) (by rw [List.length_set]; omega) (by omega) (by omega)
          refine ⟨hrec.1.trans (List.length_set _ _ _), hrec.2.1, ?_⟩
          intro x
          rw [hrec.2.2 x]
          have e1 := potList_set stop (data.set pos (data.getD (2 * pos + 1 + 1) elem))
            (2 * pos + 1 + 1) x elem hc
          rw [getD_set_ne data pos (2 * pos + 1 + 1) _ elem (by omega)] at e1
          have e2 := potList_set stop data pos (data.getD (2 * pos + 1 + 1) elem) elem
            (by omega)
          have e3 := potList_set stop data pos x elem (by omega)
          omega
        · simp only [h2, if_false]
          have hc : 2 * pos + 1 < (data.set pos (data.getD (2 * pos + 1) elem)).length := by
            rw [List.length_set]
            omega
          have hrec := ih (data.set pos (data.getD (2 * pos + 1) elem)) elem endd
            (2 * pos + 1) (by rw [List.length_set]; omega) (by omega) (by omega)
          refine ⟨hrec.1.trans (List.length_set _ _ _), hrec.2.1, ?_⟩
          intro x
          rw [hrec.2.2 x]
          have e1 := potList_set stop (data.set pos (data.getD (2 * pos + 1) elem))
            (2 * pos + 1) x elem hc
          rw [getD_set_ne data pos (2 * pos + 1) _ elem (by omega)] at e1
          have e2 := potList_set stop data pos (data.getD (2 * pos + 1) elem) elem
            (by omega)
          have e3 := potList_set stop data pos x elem (by omega)
          omega
      · simp only [h1, if_false]
        by_cases h2 : 2 * pos + 1 = endd - 1
        · simp only [h2, if_true]
          have hchild : endd - 1 < endd := by omega
          have hchildlen : endd - 1 < data.length := by omega
          refine ⟨?_, ?_, ?_⟩
          · first
            | trivial
            | exact List.length_set _ _ _
          · first
            | trivial
            | omega
          intro x
          have e1 := potList_set stop (data.set pos (data.getD (endd - 1) elem))
            (endd - 1) x elem (by rw [List.length_set]; omega)
          rw [getD_set_ne data pos (endd - 1) _ elem (by omega)] at e1
          have e2 := potList_set stop data pos (data.getD (endd - 1) elem) elem (by omega)
          have e3 := potList_set stop data pos x elem (by omega)
          omega
        · simp only [h2, if_false]
          exact ⟨trivial, hpos, fun x => trivial⟩

/-- Rust `sift_down_to_bottom` at the root preserves the weight sum. -/
theorem siftDownToBottom_potList (stop : Nat) (data : List (Event T)) (elem : Event T)
    (h : 0 < data.length) :
    potList stop (siftDownToBottom data 0 elem) = potList stop (data.set 0 elem) := by
  unfold siftDownToBottom siftUp
  have hspec := siftDownAux_spec stop data.length data elem data.length 0 rfl h (by omega)
  rw [siftUpAux_potList stop _ _ _ _ _ (by rw [hspec.1]; omega)]
  exact hspec.2.2 elem

/-- A non-empty list is its `dropLast` plus its last element. -/
theorem getLast?_decomp (l : List (Event T)) (a : Event T) (h : l.getLast? = some a) :
    l.dropLast ++ [a] = l := by
  induction l with
  | nil => exact Option.noConfusion h
  | cons x xs ih =>
      cases xs with
      | nil =>
          simp only [List.getLast?_singleton, Option.some.injEq] at h
          subst h
          rfl
      | cons y ys =>
          rw [List.getLast?_cons_cons] at h
          have := ih h
          simp only [List.dropLast_cons₂, List.cons_append, this]

/-- Rust `BinaryHeap::pop` removes exactly the returned event's weight. -/
theorem heapPop_potList (stop : Nat) (data : List (Event T)) (e : Event T)
    (rest : List (Event T)) (h : heapPop data = some (e, rest)) :
    potList stop rest + wEv stop e = potList stop data := by
  unfold heapPop at h
  cases hl : data.getLast? with
  | none => rw [hl] at h; exact Option.noConfusion h
  | some item =>
      rw [hl] at h
      have hdec := getLast?_decomp data item hl
      cases hrest : data.dropLast with
      | nil =>
          rw [hrest] at h hdec
          injection h with h2
          injection h2 with h3 h4
          subst h3
          subst h4
          rw [← hdec]
          simp only [List.nil_append, potList_cons, potList_nil]
          omega
      | cons root tail =>
          rw [hrest] at h hdec
          injection h with h2
          injection h2 with h3 h4
          subst h3
          subst h4
          rw [← hdec]
          have hsd := siftDownToBottom_potList stop (item :: tail) item (by simp)
          rw [hsd, List.set_cons_zero, potList_append, potList_cons, potList_cons,
            potList_cons, potList_nil]
          omega

/-- Rust `BinaryHeap::push` adds exactly the new event's weight. -/
theorem heapPush_potList (stop : Nat) (data : List (Event T)) (item : Event T) :
    potList stop (heapPush data item) = potList stop data + wEv stop item := by
  unfold heapPush siftUp
  rw [siftUpAux_potList stop _ _ _ _ _ (by simp)]
  have e1 := potList_set stop (data ++ [item]) data.length item item (by simp)
  rw [getD_append_len] at e1
  rw [potList_append, potList_cons, potList_nil] at e1
  omega

theorem add_events_stop [EventYield T] [Arithmetic T] [OrdOps T] [Inhabited T]
    (env : Env T Sigma Rho) (id time_delta : Nat) (st : T) :
    (add_events env id time_delta st).stop = env.stop := by
  unfold add_events
  split
  · rfl
  · split <;> rfl

theorem add_events_time [EventYield T] [Arithmetic T] [OrdOps T] [Inhabited T]
    (env : Env T Sigma Rho) (id time_delta : Nat) (st : T) :
    (add_events env id time_delta st).time = env.time := by
  unfold add_events
  split
  · rfl
  · split <;> rfl

/-- Every event `add_events` enqueues is strictly in the future and within
the horizon, so one call adds at most `potBound` weight. -/
theorem add_events_pot [EventYield T] [Arithmetic T] [OrdOps T] [Inhabited T]
    (env : Env T Sigma Rho) (id time_delta : Nat) (st : T) :
    potList env.stop (add_events env id time_delta st).events
      ≤ potList env.stop env.events + potBound env.stop env.time := by
  unfold add_events
  split
  · exact Nat.le_add_right _ _
  · split
    · exact Nat.le_add_right _ _
    · rename_i hin hzero
      rw [heapPush_potList]
      have hlt : env.time < env.stop := by omega
      have hb : potBound env.stop env.time = 3 ^ (env.stop - env.time) := by
        unfold potBound
        rw [if_neg (by omega)]
      have hw : wEv env.stop { time := env.time + time_delta, process_id := id, state := st }
          ≤ 3 ^ (env.stop - env.time) := by
        show 3 ^ (env.stop + 1 - (env.time + time_delta)) ≤ 3 ^ (env.stop - env.time)
        exact Nat.pow_le_pow_right (by norm_num) (by omega)
      omega

/-- A dispatch branch that ends in one `add_events` call on an environment
sharing the original queue, clock and horizon. -/
theorem single_add_pot [EventYield T] [Arithmetic T] [OrdOps T] [Inhabited T]
    (env envb : Env T Sigma Rho) (pid time_delta : Nat) (val : T)
    (hstop : envb.stop = env.stop) (htime : envb.time = env.time)
    (hev : envb.events = env.events) :
    (add_events envb pid time_delta val).stop = env.stop
    ∧ (add_events envb pid time_delta val).time = env.time
    ∧ potList env.stop (add_events envb pid time_delta val).events
        ≤ potList env.stop env.events + 2 * potBound env.stop env.time := by
  have h1 := add_events_pot envb pid time_delta val
  rw [hstop, htime, hev] at h1
  refine ⟨(add_events_stop _ _ _ _).trans hstop, (add_events_time _ _ _ _).trans htime, ?_⟩
  omega

/-- A dispatch branch that ends in two nested `add_events` calls. -/
theorem double_add_pot [EventYield T] [Arithmetic T] [OrdOps T] [Inhabited T]
    (env envb : Env T Sigma Rho) (pid1 delta1 pid2 delta2 : Nat) (val : T)
    (hstop : envb.stop = env.stop) (htime : envb.time = env.time)
    (hev : envb.events = env.events) :
    (add_events (add_events envb pid1 delta1 val) pid2 delta2 val).stop = env.stop
    ∧ (add_events (add_events envb pid1 delta1 val) pid2 delta2 val).time = env.time
    ∧ potList env.stop (add_events (add_events envb pid1 delta1 val) pid2 delta2 val).events
        ≤ potList env.stop env.events + 2 * potBound env.stop env.time := by
  have h1 := add_events_pot envb pid1 delta1 val
  rw [hstop, htime, hev] at h1
  have hYs : (add_events envb pid1 delta1 val).stop = env.stop :=
    (add_events_stop _ _ _ _).trans hstop
  have hYt : (add_events envb pid1 delta1 val).time = env.time :=
    (add_events_time _ _ _ _).trans htime
  have h2 := add_events_pot (add_events envb pid1 delta1 val) pid2 delta2 val
  rw [hYs, hYt] at h2
  refine ⟨(add_events_stop _ _ _ _).trans hYs, (add_events_time _ _ _ _).trans hYt, ?_⟩
  omega

/-- Dispatching a yielded intent adds at most two bounded events. -/
theorem stepYield_pot [EventYield T] [Arithmetic T] [OrdOps T] [Inhabited T]
    (env : Env T Sigma Rho) (process_id time_delta : Nat) (val : T)
    (env' : Env T Sigma Rho) (h : stepYield env process_id time_delta val = some env') :
    env'.stop = env.stop ∧ env'.time = env.time ∧
    potList env.stop env'.events
      ≤ potList env.stop env.events + 2 * potBound env.stop env.time := by
  unfold stepYield at h
  repeat' split at h
  all_goals try exact Option.noConfusion h
  all_goals injection h with h2
  all_goals subst h2
  all_goals first
    | exact double_add_pot env _ _ _ _ _ _ rfl rfl rfl
    | exact single_add_pot env _ _ _ _ rfl rfl rfl

/-- Resuming a process adds at most two bounded events. -/
theorem stepResume_pot [EventYield T] [Arithmetic T] [OrdOps T] [Inhabited T]
    (resume : ResumeFn T Sigma) (env : Env T Sigma Rho) (event : Event T)
    (sp : SimProcess Sigma Rho) (time_delta : Nat) (env' : Env T Sigma Rho)
    (h : stepResume resume env event sp time_delta = some env') :
    env'.stop = env.stop ∧ env'.time = env.time ∧
    potList env.stop env'.events
      ≤ potList env.stop env.events + 2 * potBound env.stop env.time := by
  simp only [stepResume] at h
  split at h
  · injection h with h2
    subst h2
    exact ⟨rfl, rfl, Nat.le_add_right _ _⟩
  · have h3 := stepYield_pot _ _ _ _ _ h
    obtain ⟨ha, hb, hc⟩ := h3
    have hc' : potList env.stop env'.events
        ≤ potList env.stop env.events + 2 * potBound env.stop env.time := hc
    exact ⟨ha.trans rfl, hb.trans rfl, hc'⟩

/-- The popped event's weight strictly exceeds what one dispatch can add. -/
theorem potBound_lt_wEv (stop t : Nat) : 2 * potBound stop t + 1 ≤ 3 ^ (stop + 1 - t) := by
  unfold potBound
  by_cases h : stop ≤ t
  · rw [if_pos h]
    have : 0 < 3 ^ (stop + 1 - t) := pow_pos (by norm_num) _
    omega
  · rw [if_neg h]
    have hx : 0 < 3 ^ (stop - t) := pow_pos (by norm_num) _
    have hsucc : 3 ^ (stop + 1 - t) = 3 ^ (stop - t) * 3 := by
      rw [show stop + 1 - t = (stop - t) + 1 by omega, pow_succ]
    omega

/-- One `Environment::step` strictly decreases the queue potential. -/
theorem step_pot [EventYield T] [Arithmetic T] [OrdOps T] [Inhabited T]
    (resume : ResumeFn T Sigma) (env env' : Env T Sigma Rho)
    (h : step resume env = some env') : potEnv env' < potEnv env := by
  unfold potEnv
  rcases hp : heapPop env.events with _ | ⟨event, events'⟩ <;> simp only [step, hp] at h
  · exact Option.noConfusion h
  have hpot := heapPop_potList env.stop env.events event events' hp
  have hw : wEv env.stop event = 3 ^ (env.stop + 1 - event.time) := rfl
  have hbound := potBound_lt_wEv env.stop event.time
  repeat' split at h
  all_goals try exact Option.noConfusion h
  all_goals try
    (injection h with h2; subst h2
     have hwpos := wEv_pos env.stop event
     show potList env.stop events' < potList env.stop env.events
     omega)
  all_goals
    (obtain ⟨ha, hb, hc⟩ := stepResume_pot _ _ _ _ _ _ h
     have ha' : env'.stop = env.stop := ha.trans rfl
     rw [ha']
     have hc' : potList env.stop env'.events
         ≤ potList env.stop events' + 2 * potBound env.stop event.time := hc
     omega)

/-- With the potential as fuel, the run loop either aborts on a panic or
drains the queue. -/
theorem runLoop_drains [EventYield T] [Arithmetic T] [OrdOps T] [Inhabited T]
    (resume : ResumeFn T Sigma) :
    ∀ (fuel : Nat) (env : Env T Sigma Rho), potEnv env ≤ fuel →
      ∀ e', runLoop resume fuel env = some e' → e'.events = [] := by
  intro fuel
  induction fuel with
  | zero =>
      intro env hpot e' h
      simp only [runLoop] at h
      injection h with h2
      subst h2
      unfold potEnv at hpot
      exact potList_eq_zero env.stop env.events (by omega)
  | succ fuel ih =>
      intro env hpot e' h
      simp only [runLoop] at h
      split at h
      · injection h with h2
        subst h2
        rename_i hemp
        exact List.isEmpty_iff.mp hemp
      · split at h
        · exact Option.noConfusion h
        · rename_i env1 heq
          have hdec := step_pot resume env env1 heq
          exact ih env1 (by omega) e' h

/-- C9 counterexample: the claim says the event queue is drained in
finitely many steps.  On a run whose first dispatch yields a pool request
against an empty pool, `step` panics (the `.unwrap()` of C1): no number of
loop iterations ever reaches a successfully returned state with an empty
queue, because the very first iteration aborts while a second event is
still queued. -/
theorem c9_counterexample :
    ¬ ∃ (fuel : Nat) (e : Env DemoState Unit Unit),
        run resumeRequest fuel envAbortingRun = some e ∧ e.events = [] := by
  rintro ⟨fuel, e, h, he⟩
  unfold run at h
  rw [if_pos (by decide)] at h
  cases fuel with
  | zero =>
      simp only [runLoop] at h
      injection h with h2
      subst h2
      exact absurd he (by decide)
  | succ n =>
      have hstep : step resumeRequest envAbortingRun = none := rfl
      simp only [runLoop] at h
      rw [if_neg (by decide), hstep] at h
      exact Option.noConfusion h

/-- C9 (amended): `run` terminates.  Every event scheduled during a step
passes through `add_events`, which drops zero deltas and events past the
horizon, so each dispatch replaces the popped event's weight
`3 ^ (stop + 1 - time)` by at most two strictly smaller weights, and the
potential `potEnv` bounds the number of dispatches: with that much fuel
the loop either aborts on a panicking dispatch (`none`) or returns with
the event queue drained. -/
theorem c9_run_terminates :
    ∀ (T Sigma Rho : Type) [EventYield T] [Arithmetic T] [OrdOps T] [Inhabited T]
      (resume : ResumeFn T Sigma) (env e' : Env T Sigma Rho),
      env.time < env.stop → run resume (potEnv env) env = some e' → e'.events = [] := by
  intro T Sigma Rho _ _ _ _ resume env e' htime h
  unfold run at h
  rw [if_pos htime] at h
  exact runLoop_drains resume (potEnv env) env le_rfl e' h

/-- C9 witness: the logging scenario's run (one dispatched event) drains
its queue within the potential bound. -/
theorem c9_run_terminates_witness : envLogsOnAfter.events = [] :=
  c9_run_terminates DemoState Unit Unit resumePause envLogsOn envLogsOnAfter
    (by decide) rfl

end Aika
